import Mathlib

/- Verification development for the chatbox voice-chat pipeline
   (src/lola_voice_chat.py) and the agent response schema
   (src/agents/response_schema.py).  Each definition embeds the source
   construct named in its doc comment. -/

namespace Chatbox

/-! ## Python string primitives -/

/-- Python whitespace, as matched by `\s` and stripped by `str.strip`
(ASCII part; every input appearing in the claims is ASCII). -/
def isPySpace (c : Char) : Bool :=
  c == ' ' || c == '\t' || c == '\n' || c == '\r' || c == '\x0b' || c == '\x0c'

/-- Sentence-terminal punctuation of the regex `(?<=[.!?])\s+`
(src/lola_voice_chat.py line 56). -/
def isTerm (c : Char) : Bool := c == '.' || c == '!' || c == '?'

/-- Python `str.strip` acting on the left end only. -/
def lstrip (cs : List Char) : List Char := cs.dropWhile isPySpace

/-- Python `str.strip` acting on the right end only. -/
def rstrip (cs : List Char) : List Char := (lstrip cs.reverse).reverse

/-- Python `str.strip`: whitespace removed from both ends. -/
def strip (cs : List Char) : List Char := lstrip (rstrip cs)

/-! ## The sentence splitter (src/lola_voice_chat.py lines 56-71) -/

/-- Length of the maximal whitespace run at the head of `cs`: the extent of a
greedy `\s+` match starting here. -/
def spaceRun : List Char → Nat
  | [] => 0
  | c :: rest => if isPySpace c then spaceRun rest + 1 else 0

/-- The regex lookbehind `(?<=[.!?])`: tested on the character just before
the current position (`none` at position 0). -/
def prevIsTerm : Option Char → Bool
  | some c => isTerm c
  | none => false

/-- The successive matches produced by `SENTENCE_END.finditer(text)`
(line 56): scanning left to right, a match is a maximal whitespace run whose
preceding character is sentence-terminal punctuation.  `prev` is the
character just before `cs` and `i` the absolute position of `cs` in the full
text; the result is the list of absolute `(match.start, match.end)` pairs.
After a match the scan resumes at `match.end`; the character before that
position is whitespace, so passing the first run character as `prev` is
equivalent under the lookbehind test. -/
def scanM (prev : Option Char) (i : Nat) (cs : List Char) : List (Nat × Nat) :=
  match cs with
  | [] => []
  | c :: rest =>
    if prevIsTerm prev && isPySpace c then
      let n := spaceRun (c :: rest)
      (i, i + n) :: scanM (some c) (i + n) (rest.drop (n - 1))
    else
      scanM (some c) (i + 1) rest
termination_by cs.length
decreasing_by
  · simp [List.length_drop]; omega
  · simp

/-- The match loop of `split_into_sentences` (lines 61-70): for each match,
the stripped slice `text[current_pos:match.end()]` is appended when nonempty;
after the last match the stripped tail `text[current_pos:]` is appended when
nonempty. -/
def collect (cs : List Char) (pos : Nat) : List (Nat × Nat) → List (List Char)
  | [] =>
    let fin := strip (cs.drop pos)
    if fin = [] then [] else [fin]
  | (_, e) :: ms =>
    let sent := strip ((cs.take e).drop pos)
    let rest := collect cs e ms
    if sent = [] then rest else sent :: rest

/-- `split_into_sentences` (lines 58-71): the empty string is Python-falsy
and yields `[]` (line 59); otherwise the collected sentences, or
`[text.strip()]` when none survive (line 71). -/
def split_into_sentences (text : String) : List String :=
  if text.data = [] then []
  else
    let ss := collect text.data 0 (scanM none 0 text.data)
    if ss = [] then [String.mk (strip text.data)] else ss.map String.mk

/-- The separator substrings matched by the splitting pattern: the slice of
the text under each `finditer` match. -/
def matchedSeps (text : String) : List (List Char) :=
  (scanM none 0 text.data).map (fun m => (text.data.take m.2).drop m.1)

/-! ### A structural view of the scan, used to reason about the splitter

`chunks` performs the same recursion as `scanM` but returns the decomposition
of the text itself instead of index pairs: `chunks prev cs = (g0, gs, ss)`
with `ss = [s1, ..., sk]` the separator matches and `g0, gs = [g1, ..., gk]`
the stretches of text around them, so that
`cs = g0 ++ s1 ++ g1 ++ ... ++ sk ++ gk`. -/
def chunks (prev : Option Char) (cs : List Char) :
    List Char × List (List Char) × List (List Char) :=
  match cs with
  | [] => ([], [], [])
  | c :: rest =>
    if prevIsTerm prev && isPySpace c then
      let n := spaceRun (c :: rest)
      let r := chunks (some c) (rest.drop (n - 1))
      ([], r.1 :: r.2.1, ((c :: rest).take n) :: r.2.2)
    else
      let r := chunks (some c) rest
      (c :: r.1, r.2.1, r.2.2)
termination_by cs.length
decreasing_by
  · simp [List.length_drop]; omega
  · simp

/-- The units the splitter keeps, read off a decomposition: the piece
`text[current_pos:match.end()]` belonging to separator `s_j` is the gap
before it followed by `s_j`, and the final piece is the last gap; each piece
is stripped and kept when nonempty. -/
def unitsD (g : List Char) : List (List Char) → List (List Char) → List (List Char)
  | g1 :: gs, s1 :: ss =>
    let u := strip (g ++ s1)
    let rest := unitsD g1 gs ss
    if u = [] then rest else u :: rest
  | _, _ =>
    let u := strip g
    if u = [] then [] else [u]

/-- Rejoining: the separators are placed between consecutive units. -/
def rejoinL : List (List Char) → List (List Char) → List Char
  | [], _ => []
  | [u], _ => u
  | u :: us, s :: ss => u ++ s ++ rejoinL us ss
  | u :: us, [] => u ++ rejoinL us []

/-! ### Whitespace and stripping lemmas -/

/-- A list made of whitespace only. -/
def allSpace (l : List Char) : Prop := ∀ c ∈ l, isPySpace c = true

lemma isTerm_not_space {c : Char} (h : isTerm c = true) : isPySpace c = false := by
  simp only [isTerm, Bool.or_eq_true, beq_iff_eq] at h
  rcases h with (h | h) | h <;> subst h <;> decide

lemma isPySpace_not_term {c : Char} (h : isPySpace c = true) : isTerm c = false := by
  simp only [isPySpace, Bool.or_eq_true, beq_iff_eq] at h
  rcases h with ((((h | h) | h) | h) | h) | h <;> subst h <;> decide

lemma lstrip_eq_nil_iff {l : List Char} : lstrip l = [] ↔ allSpace l :=
  List.dropWhile_eq_nil_iff

lemma allSpace_reverse {l : List Char} : allSpace l.reverse ↔ allSpace l := by
  constructor <;> intro h c hc <;> exact h c (by simpa using hc)

lemma rstrip_eq_nil_iff {l : List Char} : rstrip l = [] ↔ allSpace l := by
  rw [rstrip, List.reverse_eq_nil_iff, lstrip_eq_nil_iff, allSpace_reverse]

lemma lstrip_append_all {l₁ l₂ : List Char} (h : allSpace l₁) :
    lstrip (l₁ ++ l₂) = lstrip l₂ := by
  have h1 : l₁.dropWhile isPySpace = [] := List.dropWhile_eq_nil_iff.mpr h
  simp [lstrip, List.dropWhile_append, h1]

lemma lstrip_append_not_all {l₁ l₂ : List Char} (h : ¬ allSpace l₁) :
    lstrip (l₁ ++ l₂) = lstrip l₁ ++ l₂ := by
  have h1 : l₁.dropWhile isPySpace ≠ [] := fun he => h (List.dropWhile_eq_nil_iff.mp he)
  simp only [lstrip, List.dropWhile_append, List.isEmpty_iff]
  rw [if_neg h1]

lemma rstrip_append_all {l₁ l₂ : List Char} (h : allSpace l₂) :
    rstrip (l₁ ++ l₂) = rstrip l₁ := by
  rw [rstrip, List.reverse_append, lstrip_append_all (allSpace_reverse.mpr h), rstrip]

lemma rstrip_append_not_all {l₁ l₂ : List Char} (h : ¬ allSpace l₂) :
    rstrip (l₁ ++ l₂) = l₁ ++ rstrip l₂ := by
  rw [rstrip, List.reverse_append,
    lstrip_append_not_all (fun ha => h (allSpace_reverse.mp ha))]
  simp [rstrip]

lemma allSpace_sublist {l₁ l₂ : List Char} (hs : List.Sublist l₁ l₂) (h : allSpace l₂) :
    allSpace l₁ := fun c hc => h c (hs.subset hc)

lemma rstrip_sublist (l : List Char) : List.Sublist (rstrip l) l := by
  have h1 : List.Sublist (lstrip l.reverse) l.reverse := (List.dropWhile_suffix _).sublist
  simpa [rstrip] using h1.reverse

lemma allSpace_of_rstrip {l : List Char} (h : allSpace (rstrip l)) : allSpace l := by
  intro c hc
  have hrev : c ∈ l.reverse := by simpa using hc
  rw [← List.takeWhile_append_dropWhile isPySpace l.reverse] at hrev
  rcases List.mem_append.mp hrev with hm | hm
  · exact List.mem_takeWhile_imp hm
  · refine h c ?_
    have : c ∈ (lstrip l.reverse).reverse := by simpa [lstrip] using hm
    simpa [rstrip] using this

lemma strip_eq_nil_iff {l : List Char} : strip l = [] ↔ allSpace l := by
  rw [strip, lstrip_eq_nil_iff]
  exact ⟨allSpace_of_rstrip, allSpace_sublist (rstrip_sublist l)⟩

lemma strip_append_all {l₁ l₂ : List Char} (h : allSpace l₂) :
    strip (l₁ ++ l₂) = strip l₁ := by
  rw [strip, rstrip_append_all h, strip]

lemma rstrip_eq_self {l : List Char} {a : Char} (hl : l.getLast? = some a)
    (ha : isPySpace a = false) : rstrip l = l := by
  rcases List.getLast?_eq_some_iff.mp hl with ⟨ys, rfl⟩
  rw [rstrip, List.reverse_append]
  simp [lstrip, List.dropWhile_cons, ha]

lemma lstrip_cons_not_space {c : Char} {l : List Char} (hc : isPySpace c = false) :
    lstrip (c :: l) = c :: l := by
  simp [lstrip, List.dropWhile_cons, hc]

lemma rstrip_cons_not_space {c : Char} {l : List Char} (hc : isPySpace c = false) :
    rstrip (c :: l) = c :: rstrip l := by
  by_cases h : allSpace l
  · have h2 : rstrip l = [] := rstrip_eq_nil_iff.mpr h
    have h3 : rstrip ([c] ++ l) = rstrip [c] := rstrip_append_all h
    have h4 : rstrip [c] = [c] := by
      simp [rstrip, lstrip, List.dropWhile_cons, hc]
    rw [h2]
    simpa [h4] using h3
  · have h3 : rstrip ([c] ++ l) = [c] ++ rstrip l := rstrip_append_not_all h
    simpa using h3

lemma strip_cons_not_space {c : Char} {l : List Char} (hc : isPySpace c = false) :
    strip (c :: l) = c :: rstrip l := by
  rw [strip, rstrip_cons_not_space hc, lstrip_cons_not_space hc]

/-! ### Whitespace runs and the scan -/

lemma spaceRun_cons_space {c : Char} {rest : List Char} (hc : isPySpace c = true) :
    spaceRun (c :: rest) = spaceRun rest + 1 := by
  simp [spaceRun, hc]

lemma spaceRun_cons_not_space {c : Char} {rest : List Char} (hc : isPySpace c = false) :
    spaceRun (c :: rest) = 0 := by
  simp [spaceRun, hc]

lemma spaceRun_le_length : ∀ cs : List Char, spaceRun cs ≤ cs.length
  | [] => by simp [spaceRun]
  | c :: rest => by
    by_cases hc : isPySpace c = true
    · rw [spaceRun_cons_space hc]
      simpa using spaceRun_le_length rest
    · rw [spaceRun_cons_not_space (by simpa using hc)]
      simp

lemma spaceRun_take_allSpace : ∀ cs : List Char, allSpace (cs.take (spaceRun cs))
  | [] => by simp [spaceRun, allSpace]
  | c :: rest => by
    by_cases hc : isPySpace c = true
    · rw [spaceRun_cons_space hc, List.take_succ_cons]
      intro x hx
      rcases List.mem_cons.mp hx with h | h
      · exact h ▸ hc
      · exact spaceRun_take_allSpace rest x h
    · rw [spaceRun_cons_not_space (by simpa using hc)]
      simp [allSpace]

lemma spaceRun_drop_head : ∀ (cs : List Char) {c : Char} {t : List Char},
    cs.drop (spaceRun cs) = c :: t → isPySpace c = false
  | [], c, t => by intro h; simp [spaceRun] at h
  | d :: rest, c, t => by
    intro h
    by_cases hd : isPySpace d = true
    · rw [spaceRun_cons_space hd, List.drop_succ_cons] at h
      exact spaceRun_drop_head rest h
    · rw [spaceRun_cons_not_space (by simpa using hd), List.drop_zero] at h
      cases h
      simpa using hd

/-- Position shifting of match pairs. -/
def shiftM (k : Nat) (ms : List (Nat × Nat)) : List (Nat × Nat) :=
  ms.map (fun m => (k + m.1, k + m.2))

lemma scanM_nil (prev : Option Char) (i : Nat) : scanM prev i [] = [] := by
  simp [scanM]

lemma scanM_cons_sep {prev : Option Char} {c : Char} {rest : List Char} (i : Nat)
    (h : (prevIsTerm prev && isPySpace c) = true) :
    scanM prev i (c :: rest) =
      (i, i + spaceRun (c :: rest)) ::
        scanM (some c) (i + spaceRun (c :: rest)) (rest.drop (spaceRun (c :: rest) - 1)) := by
  rw [scanM]
  simp [h]

lemma scanM_cons_nosep {prev : Option Char} {c : Char} {rest : List Char} (i : Nat)
    (h : (prevIsTerm prev && isPySpace c) = false) :
    scanM prev i (c :: rest) = scanM (some c) (i + 1) rest := by
  rw [scanM]
  simp [h]

lemma chunks_nil (prev : Option Char) : chunks prev [] = ([], [], []) := by
  simp [chunks]

lemma chunks_cons_sep {prev : Option Char} {c : Char} {rest : List Char}
    (h : (prevIsTerm prev && isPySpace c) = true) :
    chunks prev (c :: rest) =
      ([], (chunks (some c) (rest.drop (spaceRun (c :: rest) - 1))).1 ::
             (chunks (some c) (rest.drop (spaceRun (c :: rest) - 1))).2.1,
           ((c :: rest).take (spaceRun (c :: rest))) ::
             (chunks (some c) (rest.drop (spaceRun (c :: rest) - 1))).2.2) := by
  rw [chunks]
  simp [h]

lemma chunks_cons_nosep {prev : Option Char} {c : Char} {rest : List Char}
    (h : (prevIsTerm prev && isPySpace c) = false) :
    chunks prev (c :: rest) =
      (c :: (chunks (some c) rest).1, (chunks (some c) rest).2.1,
        (chunks (some c) rest).2.2) := by
  rw [chunks]
  simp [h]

lemma scanM_shift : ∀ (cs : List Char) (prev : Option Char) (i j : Nat),
    scanM prev (i + j) cs = shiftM i (scanM prev j cs)
  | [], prev, i, j => by simp [scanM_nil, shiftM]
  | c :: rest, prev, i, j => by
    by_cases h : (prevIsTerm prev && isPySpace c) = true
    · rw [scanM_cons_sep _ h, scanM_cons_sep _ h]
      have ih := scanM_shift (rest.drop (spaceRun (c :: rest) - 1)) (some c) i
        (j + spaceRun (c :: rest))
      rw [← add_assoc] at ih
      rw [ih]
      simp [shiftM, add_assoc]
    · rw [scanM_cons_nosep _ (by simpa using h), scanM_cons_nosep _ (by simpa using h)]
      have ih := scanM_shift rest (some c) i (j + 1)
      rw [← add_assoc] at ih
      exact ih
termination_by cs => cs.length
decreasing_by
  · simp [List.length_drop]; omega
  · simp

lemma collect_shift : ∀ (ms : List (Nat × Nat)) (cs : List Char) (pos q : Nat),
    collect cs (pos + q) (shiftM pos ms) = collect (cs.drop pos) q ms
  | [], cs, pos, q => by
    simp [collect, shiftM, List.drop_drop]
  | (s, e) :: ms, cs, pos, q => by
    simp only [shiftM, List.map_cons, collect]
    have hslice : (cs.take (pos + e)).drop (pos + q) = ((cs.drop pos).take e).drop q := by
      rw [List.drop_take, List.drop_take, List.drop_drop]
      congr 1
      omega
    have ih := collect_shift ms cs pos e
    simp only [shiftM] at ih
    rw [hslice, ih]

lemma shiftM_zero (ms : List (Nat × Nat)) : shiftM 0 ms = ms := by
  simp [shiftM]

lemma shiftM_shiftM (a b : Nat) (ms : List (Nat × Nat)) :
    shiftM a (shiftM b ms) = shiftM (a + b) ms := by
  simp [shiftM, List.map_map, Function.comp, add_assoc]

lemma slice_shift : ∀ (ms : List (Nat × Nat)) (pre cs : List Char),
    (shiftM pre.length ms).map (fun m => ((pre ++ cs).take m.2).drop m.1)
      = ms.map (fun m => (cs.take m.2).drop m.1)
  | [], pre, cs => by simp [shiftM]
  | (s, e) :: ms, pre, cs => by
    simp only [shiftM, List.map_cons]
    have h1 : ((pre ++ cs).take (pre.length + e)).drop (pre.length + s)
        = (cs.take e).drop s := by
      rw [List.take_append, List.drop_append]
    have ih := slice_shift ms pre cs
    simp only [shiftM] at ih
    rw [h1, ih]

/-- The separator slices of the `finditer` matches are exactly the separator
component of the structural decomposition. -/
lemma scanM_slices : ∀ (cs : List Char) (prev : Option Char),
    (scanM prev 0 cs).map (fun m => (cs.take m.2).drop m.1) = (chunks prev cs).2.2
  | [], prev => by simp [scanM_nil, chunks_nil]
  | c :: rest, prev => by
    by_cases h : (prevIsTerm prev && isPySpace c) = true
    · have hsp : isPySpace c = true :=
        ((by simpa using h : prevIsTerm prev = true ∧ isPySpace c = true)).2
      rw [scanM_cons_sep _ h, chunks_cons_sep h]
      dsimp only
      simp only [List.map_cons, zero_add, List.drop_zero]
      have hshift := scanM_shift (rest.drop (spaceRun (c :: rest) - 1)) (some c)
        (spaceRun (c :: rest)) 0
      rw [add_zero] at hshift
      rw [hshift]
      have hplen : ((c :: rest).take (spaceRun (c :: rest))).length = spaceRun (c :: rest) := by
        rw [List.length_take]
        exact min_eq_left (spaceRun_le_length _)
      have hD : (c :: rest).drop (spaceRun (c :: rest)) = rest.drop (spaceRun (c :: rest) - 1) := by
        rw [spaceRun_cons_space hsp, List.drop_succ_cons, Nat.add_sub_cancel]
      have hpre : (c :: rest).take (spaceRun (c :: rest)) ++ rest.drop (spaceRun (c :: rest) - 1)
          = c :: rest := by
        rw [← hD]
        exact List.take_append_drop _ _
      have key := slice_shift (scanM (some c) 0 (rest.drop (spaceRun (c :: rest) - 1)))
        ((c :: rest).take (spaceRun (c :: rest))) (rest.drop (spaceRun (c :: rest) - 1))
      rw [hplen, hpre] at key
      rw [key, scanM_slices (rest.drop (spaceRun (c :: rest) - 1)) (some c)]
    · have h' : (prevIsTerm prev && isPySpace c) = false := by simpa using h
      rw [scanM_cons_nosep _ h', chunks_cons_nosep h', zero_add]
      dsimp only
      have hshift := scanM_shift rest (some c) 1 0
      rw [add_zero] at hshift
      rw [hshift]
      have key := slice_shift (scanM (some c) 0 rest) [c] rest
      simp only [List.length_cons, List.length_nil, List.singleton_append] at key
      rw [key, scanM_slices rest (some c)]
termination_by cs => cs.length
decreasing_by
  all_goals simp [List.length_drop]
  all_goals omega

/-- The kept sentences of the splitter loop, computed over an accumulated
prefix, are the units read off the structural decomposition. -/
lemma collect_eq_unitsD : ∀ (cs : List Char) (prev : Option Char) (acc : List Char),
    collect (acc ++ cs) 0 (shiftM acc.length (scanM prev 0 cs))
      = unitsD (acc ++ (chunks prev cs).1) (chunks prev cs).2.1 (chunks prev cs).2.2
  | [], prev, acc => by
    simp [scanM_nil, chunks_nil, shiftM, collect, unitsD]
  | c :: rest, prev, acc => by
    by_cases h : (prevIsTerm prev && isPySpace c) = true
    · have hsp : isPySpace c = true :=
        ((by simpa using h : prevIsTerm prev = true ∧ isPySpace c = true)).2
      rw [scanM_cons_sep _ h, chunks_cons_sep h]
      dsimp only
      simp only [zero_add]
      have hshift := scanM_shift (rest.drop (spaceRun (c :: rest) - 1)) (some c)
        (spaceRun (c :: rest)) 0
      rw [add_zero] at hshift
      rw [hshift]
      simp only [shiftM, List.map_cons]
      have hcomp := shiftM_shiftM acc.length (spaceRun (c :: rest))
        (scanM (some c) 0 (rest.drop (spaceRun (c :: rest) - 1)))
      simp only [shiftM] at hcomp
      rw [hcomp]
      simp only [collect, List.drop_zero]
      have htake : (acc ++ c :: rest).take (acc.length + spaceRun (c :: rest))
          = acc ++ (c :: rest).take (spaceRun (c :: rest)) := List.take_append _
      have hD : (c :: rest).drop (spaceRun (c :: rest)) = rest.drop (spaceRun (c :: rest) - 1) := by
        rw [spaceRun_cons_space hsp, List.drop_succ_cons, Nat.add_sub_cancel]
      have hcs := collect_shift (scanM (some c) 0 (rest.drop (spaceRun (c :: rest) - 1)))
        (acc ++ c :: rest) (acc.length + spaceRun (c :: rest)) 0
      rw [add_zero] at hcs
      simp only [shiftM] at hcs
      rw [hcs, List.drop_append, hD]
      have ih := collect_eq_unitsD (rest.drop (spaceRun (c :: rest) - 1)) (some c) []
      simp only [List.nil_append, List.length_nil, shiftM_zero] at ih
      rw [ih]
      simp only [unitsD, List.append_nil, htake]
    · have h' : (prevIsTerm prev && isPySpace c) = false := by simpa using h
      rw [scanM_cons_nosep _ h', chunks_cons_nosep h']
      dsimp only
      have hshift := scanM_shift rest (some c) 1 0
      rw [add_zero] at hshift
      rw [hshift]
      have hcomp := shiftM_shiftM acc.length 1 (scanM (some c) 0 rest)
      rw [hcomp]
      have hlen : acc.length + 1 = (acc ++ [c]).length := by simp
      have happ : acc ++ c :: rest = (acc ++ [c]) ++ rest := by simp
      rw [hlen, happ]
      have ih := collect_eq_unitsD rest (some c) (acc ++ [c])
      rw [ih]
      have happ2 : (acc ++ [c]) ++ (chunks (some c) rest).1
          = acc ++ c :: (chunks (some c) rest).1 := by simp
      rw [happ2]
termination_by cs => cs.length
decreasing_by
  all_goals simp [List.length_drop]
  all_goals omega

lemma allSpace_append {l₁ l₂ : List Char} :
    allSpace (l₁ ++ l₂) ↔ allSpace l₁ ∧ allSpace l₂ := by
  constructor
  · intro h
    exact ⟨fun c hc => h c (List.mem_append.mpr (Or.inl hc)),
           fun c hc => h c (List.mem_append.mpr (Or.inr hc))⟩
  · rintro ⟨h₁, h₂⟩ c hc
    rcases List.mem_append.mp hc with hc | hc
    · exact h₁ c hc
    · exact h₂ c hc

lemma unitsD_mem_ne_nil : ∀ (gs ss : List (List Char)) (g u : List Char),
    u ∈ unitsD g gs ss → u ≠ [] := by
  intro gs
  induction gs with
  | nil =>
    intro ss g u hu
    have hu' : u ∈ (if strip g = [] then ([] : List (List Char)) else [strip g]) := by
      cases ss <;> simpa [unitsD] using hu
    split at hu'
    · simp at hu'
    · rename_i hne
      rcases List.mem_singleton.mp hu' with rfl
      exact hne
  | cons g1 gs ih =>
    intro ss g u hu
    cases ss with
    | nil =>
      simp only [unitsD] at hu
      split at hu
      · simp at hu
      · rcases List.mem_singleton.mp hu with rfl; assumption
    | cons s1 ss =>
      simp only [unitsD] at hu
      split at hu
      · exact ih ss g1 u hu
      · rcases List.mem_cons.mp hu with rfl | hu
        · assumption
        · exact ih ss g1 u hu

lemma rejoinL_cons (u : List Char) (us ss : List (List Char)) :
    ∃ t, rejoinL (u :: us) ss = u ++ t := by
  cases us with
  | nil => exact ⟨[], by simp [rejoinL]⟩
  | cons v vs =>
    cases ss with
    | nil => exact ⟨rejoinL (v :: vs) [], by simp [rejoinL]⟩
    | cons s ss => exact ⟨s ++ rejoinL (v :: vs) ss, by simp [rejoinL]⟩

/-- Relation between the accumulated prefix and the scan's lookbehind
character: `prev` is the last character of `acc` when `acc` is nonempty and
is a non-terminator otherwise. -/
def accPrev (acc : List Char) (prev : Option Char) : Prop :=
  match acc.getLast? with
  | some a => prev = some a
  | none => prevIsTerm prev = false

/-- Core of the lossless-split property: rejoining the units of the
decomposition of `acc ++ cs` with its separators recovers the stripped
text. -/
lemma rejoin_gen : ∀ (cs : List Char) (prev : Option Char) (acc : List Char),
    accPrev acc prev →
    rejoinL (unitsD (acc ++ (chunks prev cs).1) (chunks prev cs).2.1 (chunks prev cs).2.2)
        (chunks prev cs).2.2
      = strip (acc ++ cs)
  | [], prev, acc, _ => by
    rw [chunks_nil]
    dsimp only
    simp only [List.append_nil]
    by_cases hs : strip acc = []
    · simp [unitsD, hs, rejoinL]
    · simp [unitsD, hs, rejoinL]
  | c :: rest, prev, acc, hlink => by
    by_cases h : (prevIsTerm prev && isPySpace c) = true
    · obtain ⟨hterm, hsp⟩ : prevIsTerm prev = true ∧ isPySpace c = true := by simpa using h
      have hlast : ∃ a, acc.getLast? = some a ∧ prev = some a := by
        unfold accPrev at hlink
        cases hg : acc.getLast? with
        | none =>
          rw [hg] at hlink
          rw [hlink] at hterm
          exact absurd hterm (by simp)
        | some a =>
          rw [hg] at hlink
          exact ⟨a, rfl, hlink⟩
      obtain ⟨a, hga, hpa⟩ := hlast
      have hta : isTerm a = true := by
        rw [hpa] at hterm
        exact hterm
      have hans : isPySpace a = false := isTerm_not_space hta
      have hnall : ¬ allSpace acc := by
        intro hall
        obtain ⟨ys, hacc⟩ := List.getLast?_eq_some_iff.mp hga
        have : isPySpace a = true := hall a (by rw [hacc]; simp)
        rw [hans] at this
        cases this
      have hstripacc : strip acc = lstrip acc := by
        rw [strip, rstrip_eq_self hga hans]
      have hsane : strip acc ≠ [] := fun hz => hnall (strip_eq_nil_iff.mp hz)
      rw [chunks_cons_sep h]
      dsimp only
      have hD : (c :: rest).drop (spaceRun (c :: rest)) = rest.drop (spaceRun (c :: rest) - 1) := by
        rw [spaceRun_cons_space hsp, List.drop_succ_cons, Nat.add_sub_cancel]
      have hsep_all : allSpace ((c :: rest).take (spaceRun (c :: rest))) :=
        spaceRun_take_allSpace _
      have hsplit : (c :: rest)
          = (c :: rest).take (spaceRun (c :: rest)) ++ rest.drop (spaceRun (c :: rest) - 1) := by
        rw [← hD]
        exact (List.take_append_drop _ _).symm
      have hfirst : strip ((acc ++ []) ++ (c :: rest).take (spaceRun (c :: rest)))
          = strip acc := by
        rw [List.append_nil]
        exact strip_append_all hsep_all
      have hihlink : accPrev [] (some c) := by
        unfold accPrev
        simp [prevIsTerm, isPySpace_not_term hsp]
      have ih := rejoin_gen (rest.drop (spaceRun (c :: rest) - 1)) (some c) [] hihlink
      simp only [List.nil_append] at ih
      simp only [unitsD, hfirst]
      rw [if_neg hsane]
      rcases hU : unitsD (chunks (some c) (rest.drop (spaceRun (c :: rest) - 1))).1
          (chunks (some c) (rest.drop (spaceRun (c :: rest) - 1))).2.1
          (chunks (some c) (rest.drop (spaceRun (c :: rest) - 1))).2.2 with _ | ⟨u, us⟩
      · rw [hU] at ih
        simp only [rejoinL] at ih
        have hDall : allSpace (rest.drop (spaceRun (c :: rest) - 1)) :=
          strip_eq_nil_iff.mp ih.symm
        have hall2 : allSpace ((c :: rest).take (spaceRun (c :: rest))
            ++ rest.drop (spaceRun (c :: rest) - 1)) :=
          allSpace_append.mpr ⟨hsep_all, hDall⟩
        calc rejoinL [strip acc] ((c :: rest).take (spaceRun (c :: rest))
                :: (chunks (some c) (rest.drop (spaceRun (c :: rest) - 1))).2.2)
            = strip acc := by simp [rejoinL]
          _ = strip (acc ++ ((c :: rest).take (spaceRun (c :: rest))
                ++ rest.drop (spaceRun (c :: rest) - 1))) := (strip_append_all hall2).symm
          _ = strip (acc ++ c :: rest) := by rw [← hsplit]
      · rw [hU] at ih
        have hmem : u ∈ unitsD (chunks (some c) (rest.drop (spaceRun (c :: rest) - 1))).1
            (chunks (some c) (rest.drop (spaceRun (c :: rest) - 1))).2.1
            (chunks (some c) (rest.drop (spaceRun (c :: rest) - 1))).2.2 := by
          rw [hU]
          exact List.mem_cons_self u us
        have hu_ne : u ≠ [] := unitsD_mem_ne_nil _ _ _ u hmem
        obtain ⟨t, hre⟩ := rejoinL_cons u us
          (chunks (some c) (rest.drop (spaceRun (c :: rest) - 1))).2.2
        have hsD_ne : strip (rest.drop (spaceRun (c :: rest) - 1)) ≠ [] := by
          rw [← ih, hre]
          intro hz
          exact hu_ne (List.append_eq_nil.mp hz).1
        have hDnall : ¬ allSpace (rest.drop (spaceRun (c :: rest) - 1)) :=
          fun hall => hsD_ne (strip_eq_nil_iff.mpr hall)
        obtain ⟨d, D', hDeq⟩ : ∃ d D', rest.drop (spaceRun (c :: rest) - 1) = d :: D' := by
          cases hcase : rest.drop (spaceRun (c :: rest) - 1) with
          | nil =>
            rw [hcase] at hDnall
            exact absurd (by intro x hx; cases hx) hDnall
          | cons d D' => exact ⟨d, D', rfl⟩
        have hdrop2 : (c :: rest).drop (spaceRun (c :: rest)) = d :: D' := by
          rw [hD, hDeq]
        have hdns : isPySpace d = false := spaceRun_drop_head (c :: rest) hdrop2
        have hstripD : strip (rest.drop (spaceRun (c :: rest) - 1))
            = rstrip (rest.drop (spaceRun (c :: rest) - 1)) := by
          rw [hDeq, strip_cons_not_space hdns, rstrip_cons_not_space hdns]
        have hnall2 : ¬ allSpace (acc ++ (c :: rest).take (spaceRun (c :: rest))) := by
          intro hall
          exact hnall (allSpace_append.mp hall).1
        have hsplit2 : acc ++ c :: rest
            = (acc ++ (c :: rest).take (spaceRun (c :: rest)))
                ++ rest.drop (spaceRun (c :: rest) - 1) := by
          rw [List.append_assoc, ← hsplit]
        have hrhs : strip (acc ++ c :: rest)
            = lstrip acc ++ (c :: rest).take (spaceRun (c :: rest))
                ++ rstrip (rest.drop (spaceRun (c :: rest) - 1)) := by
          rw [hsplit2, strip, rstrip_append_not_all hDnall,
            lstrip_append_not_all hnall2, lstrip_append_not_all hnall]
        calc rejoinL (strip acc :: u :: us) ((c :: rest).take (spaceRun (c :: rest))
                :: (chunks (some c) (rest.drop (spaceRun (c :: rest) - 1))).2.2)
            = strip acc ++ (c :: rest).take (spaceRun (c :: rest))
                ++ rejoinL (u :: us)
                  (chunks (some c) (rest.drop (spaceRun (c :: rest) - 1))).2.2 := by
              simp [rejoinL, List.append_assoc]
          _ = lstrip acc ++ (c :: rest).take (spaceRun (c :: rest))
                ++ rstrip (rest.drop (spaceRun (c :: rest) - 1)) := by
              rw [ih, hstripacc, hstripD]
          _ = strip (acc ++ c :: rest) := hrhs.symm
    · have h' : (prevIsTerm prev && isPySpace c) = false := by simpa using h
      rw [chunks_cons_nosep h']
      dsimp only
      have hlink' : accPrev (acc ++ [c]) (some c) := by
        unfold accPrev
        rw [List.getLast?_concat]
      have ih := rejoin_gen rest (some c) (acc ++ [c]) hlink'
      have happ : acc ++ c :: (chunks (some c) rest).1
          = (acc ++ [c]) ++ (chunks (some c) rest).1 := by simp
      have happ2 : acc ++ c :: rest = (acc ++ [c]) ++ rest := by simp
      rw [happ, happ2]
      exact ih
termination_by cs => cs.length
decreasing_by
  all_goals simp [List.length_drop]
  all_goals omega

/-! ## Theorems about the sentence splitter (claims C8, C9) -/

lemma collect_full (text : String) :
    collect text.data 0 (scanM none 0 text.data)
      = unitsD (chunks none text.data).1 (chunks none text.data).2.1
          (chunks none text.data).2.2 := by
  have hcoll := collect_eq_unitsD text.data none []
  simpa only [List.nil_append, List.length_nil, shiftM_zero] using hcoll

lemma rejoin_top (text : String) :
    rejoinL (unitsD (chunks none text.data).1 (chunks none text.data).2.1
        (chunks none text.data).2.2) (chunks none text.data).2.2
      = strip text.data := by
  have hlink : accPrev [] (none : Option Char) := by
    unfold accPrev
    simp [prevIsTerm]
  have hgen := rejoin_gen text.data none [] hlink
  simpa only [List.nil_append] using hgen

/-- C9: for every input text, the units returned by `split_into_sentences`,
rejoined with the separator substrings matched by the splitting pattern
placed between consecutive units, reconstruct the trimmed original text. -/
theorem split_rejoin_lossless (text : String) :
    rejoinL ((split_into_sentences text).map String.data) (matchedSeps text)
      = strip text.data := by
  by_cases hnil : text.data = []
  · simp [split_into_sentences, hnil, rejoinL, strip, lstrip, rstrip]
  · have hseps : matchedSeps text = (chunks none text.data).2.2 := by
      rw [matchedSeps, scanM_slices]
    rw [split_into_sentences, if_neg hnil]
    by_cases hempty : collect text.data 0 (scanM none 0 text.data) = []
    · rw [if_pos hempty]
      have hgen := rejoin_top text
      rw [collect_full text] at hempty
      rw [hempty] at hgen
      simp only [rejoinL] at hgen
      simp [rejoinL, ← hgen]
    · rw [if_neg hempty]
      rw [List.map_map, show String.data ∘ String.mk = id from rfl, List.map_id]
      rw [collect_full text, hseps]
      exact rejoin_top text

/-- C8 (counterexample): the whitespace-only input `" "` is a non-empty
string, yet `split_into_sentences` returns a single empty unit, so the
splitter does not always avoid empty units. -/
theorem split_whitespace_yields_empty_unit :
    split_into_sentences " " = [""] ∧ "" ∈ split_into_sentences " " := by
  constructor <;>
    simp [split_into_sentences, scanM, collect, strip, lstrip, rstrip, isPySpace, prevIsTerm]

/-- C8 (amended): an empty unit can only arise for a non-empty whitespace-only
input, in which case the result is exactly the single unit consisting of the
trimmed (empty) text; and for every non-empty input in which the splitting
pattern finds no match (no sentence-terminal punctuation followed by
whitespace) the splitter returns exactly one unit, the whole trimmed text. -/
theorem split_units_nonempty_amended :
    (∀ (text : String) (u : String), u ∈ split_into_sentences text → u = "" →
      strip text.data = [] ∧ split_into_sentences text = [""]) ∧
    (∀ text : String, text ≠ "" → scanM none 0 text.data = [] →
      split_into_sentences text = [String.mk (strip text.data)]) := by
  constructor
  · intro text u hu hue
    by_cases hnil : text.data = []
    · rw [split_into_sentences, if_pos hnil] at hu
      simp at hu
    · rw [split_into_sentences, if_neg hnil] at hu
      by_cases hempty : collect text.data 0 (scanM none 0 text.data) = []
      · rw [if_pos hempty] at hu
        rcases List.mem_singleton.mp hu with rfl
        have hs : strip text.data = [] := by
          have := congrArg String.data hue
          simpa using this
        refine ⟨hs, ?_⟩
        rw [split_into_sentences, if_neg hnil, if_pos hempty, hs]
      · rw [if_neg hempty] at hu
        rcases List.mem_map.mp hu with ⟨l, hl, rfl⟩
        have hlne : l ≠ [] := by
          rw [collect_full text] at hl
          exact unitsD_mem_ne_nil _ _ _ l hl
        have : l = [] := by
          have := congrArg String.data hue
          simpa using this
        exact absurd this hlne
  · intro text hne hscan
    have hnil : text.data ≠ [] := by
      intro hd
      apply hne
      have := congrArg String.mk hd
      simpa using this
    rw [split_into_sentences, if_neg hnil, hscan]
    by_cases hs : strip text.data = []
    · simp [collect, hs]
    · simp [collect, hs]

/-- Witness for the amended C8: both parts applied at concrete inputs. -/
theorem split_units_nonempty_amended_witness :
    (strip " ".data = [] ∧ split_into_sentences " " = [""]) ∧
      split_into_sentences "hello" = [String.mk (strip "hello".data)] := by
  constructor
  · exact split_units_nonempty_amended.1 " " ""
      (by simp [split_into_sentences, scanM, collect, strip, lstrip, rstrip, isPySpace,
        prevIsTerm])
      rfl
  · exact split_units_nonempty_amended.2 "hello" (by decide)
      (by simp [scanM, prevIsTerm, isPySpace])

/-! ## Interrupt detection (src/lola_voice_chat.py lines 184-223) -/

/-- The stop-phrase lexicon `INTERRUPT_PHRASES` (lines 184-190). -/
def INTERRUPT_PHRASES : List String :=
  ["stop", "halt", "pause", "wait", "hold on",
   "that's enough", "okay thank you", "you can pause now",
   "enough", "okay stop", "alright stop", "thank you",
   "i've heard enough", "that will do", "no more",
   "please stop", "can you stop", "let me think"]

/-- Python substring containment, `needle in hay` for strings. -/
def pyInStr (needle hay : String) : Bool :=
  (List.range (hay.data.length + 1)).any (fun i => needle.data.isPrefixOf (hay.data.drop i))

/-- Python attribute lookup plus call on a `str` value, as used on line 198:
`lower` and `strip` are genuine `str` methods; any other attribute name
raises `AttributeError`. -/
def strMethod (s : String) (attr : String) : Except String String :=
  if attr = "lower" then Except.ok s.toLower
  else if attr = "strip" then Except.ok s.trim
  else Except.error ("AttributeError: str object has no attribute " ++ attr)

/-- `check_for_interrupt` (lines 192-211), parameterised by the outcome of
`recognize_google`: `none` models `sr.UnknownValueError` or the capture
timeout, both of which return `False`.  On a successful transcription the
code evaluates `recognize_google(audio).lower(). agricultura().strip()`; the
attribute `agricultura` does not exist on `str`, so an `AttributeError` is
raised and lands in the outer `except Exception` handler (lines 208-211),
which returns `False`.  The phrase containment test of lines 200-203 is
applied only when all three method calls succeed. -/
def check_for_interrupt (transcription : Option String) : Bool :=
  match transcription with
  | none => false
  | some raw =>
    match (strMethod raw "lower").bind (fun s₁ =>
        (strMethod s₁ "agricultura").bind (fun s₂ => strMethod s₂ "strip")) with
    | Except.error _ => false
    | Except.ok text => INTERRUPT_PHRASES.any (fun phrase => pyInStr phrase text)

/-- C1 (code bug): `check_for_interrupt` reports no match for any
transcription outcome — the `agricultura` attribute error makes the
containment test unreachable — although the lowercased, trimmed
transcription "stop" (its own lowercased, trimmed form) does contain a
configured stop phrase, so the claimed
match (and the monitor's interrupt signal, drain and exit that depend on it)
never happens. -/
theorem check_for_interrupt_never_matches :
    (∀ t : Option String, check_for_interrupt t = false) ∧
      INTERRUPT_PHRASES.any (fun phrase => pyInStr phrase "stop") = true := by
  constructor
  · intro t
    cases t with
    | none => rfl
    | some raw => simp [check_for_interrupt, strMethod, Except.bind]
  · decide

/-! ## The speech queue under interruption
(src/lola_voice_chat.py lines 96-98, 139-161, 168-179, 213-223)

One reply cycle is modelled as an interleaving of atomic events against the
shared state: the main loop enqueues units (`speak`, lines 168-171), the
interrupt monitor on a match sets `interrupt_flag` and drains the queue
(`interrupt_monitor` lines 219-220, `clear_speech_queue` lines 173-179), and
the TTS worker takes the next queued unit and either skips it when
`interrupt_flag` is set (lines 143-145) or plays it (lines 147-160).  Within
one reply cycle the flag is never cleared: `interrupt_flag.clear()` runs
only at the start of the next cycle (line 318).  `enqueued` records every
enqueued unit and `played` the units whose playback completed. -/
structure SpeechState where
  pending : List String
  flag : Bool
  played : List String
  enqueued : List String
deriving DecidableEq

/-- The atomic events of one reply cycle. -/
inductive SpeechEv where
  | enqueue (s : String)
  | cancel
  | workerStep
deriving DecidableEq

/-- State at the start of a reply cycle: empty queue, flag cleared
(line 318). -/
def initSpeech : SpeechState := ⟨[], false, [], []⟩

/-- Effect of one event. -/
def speechStep (st : SpeechState) : SpeechEv → SpeechState
  | SpeechEv.enqueue s =>
    { st with pending := st.pending ++ [s], enqueued := st.enqueued ++ [s] }
  | SpeechEv.cancel => { st with flag := true, pending := [] }
  | SpeechEv.workerStep =>
    match st.pending with
    | [] => st
    | s :: rest =>
      if st.flag then { st with pending := rest }
      else { st with pending := rest, played := st.played ++ [s] }

/-- Run of an event interleaving. -/
def runQ (st : SpeechState) (es : List SpeechEv) : SpeechState := es.foldl speechStep st

lemma runQ_append (st : SpeechState) (es1 es2 : List SpeechEv) :
    runQ st (es1 ++ es2) = runQ (runQ st es1) es2 :=
  List.foldl_append _ _ _ _

lemma flag_stays (es : List SpeechEv) : ∀ st : SpeechState, st.flag = true →
    (runQ st es).flag = true ∧ (runQ st es).played = st.played := by
  induction es with
  | nil => intro st h; exact ⟨h, rfl⟩
  | cons e es ih =>
    intro st h
    have hst : (speechStep st e).flag = true ∧ (speechStep st e).played = st.played := by
      cases e with
      | enqueue s => exact ⟨h, rfl⟩
      | cancel => exact ⟨rfl, rfl⟩
      | workerStep =>
        cases hp : st.pending with
        | nil => simp [speechStep, hp, h]
        | cons s rest => simp [speechStep, hp, h]
    have := ih (speechStep st e) hst.1
    exact ⟨this.1, by rw [show runQ st (e :: es) = runQ (speechStep st e) es from rfl,
      this.2, hst.2]⟩

/-- Invariant of the queue model: completed playback is a prefix of the
enqueued sequence, and while the flag is unset the enqueued sequence is the
played part followed by the pending part. -/
def QInv (st : SpeechState) : Prop :=
  st.played <+: st.enqueued ∧ (st.flag = false → st.enqueued = st.played ++ st.pending)

lemma QInv_init : QInv initSpeech :=
  ⟨List.nil_prefix, fun _ => rfl⟩

lemma QInv_step (st : SpeechState) (e : SpeechEv) (h : QInv st) : QInv (speechStep st e) := by
  obtain ⟨hpre, heq⟩ := h
  cases e with
  | enqueue s =>
    refine ⟨?_, ?_⟩
    · exact hpre.trans (List.prefix_append _ _)
    · intro hf
      have := heq hf
      simp [speechStep, this]
  | cancel =>
    exact ⟨hpre, by intro hf; simp [speechStep] at hf⟩
  | workerStep =>
    cases hp : st.pending with
    | nil =>
      constructor
      · simpa [speechStep, hp] using hpre
      · intro hf
        simpa [speechStep, hp] using heq (by simpa [speechStep, hp] using hf)
    | cons s rest =>
      by_cases hf : st.flag = true
      · constructor
        · simpa [speechStep, hp, hf] using hpre
        · intro hff
          simp [speechStep, hp, hf] at hff
      · have hfalse : st.flag = false := by simpa using hf
        have he := heq hfalse
        constructor
        · simp only [speechStep, hp, hfalse, if_false, Bool.false_eq_true]
          rw [he, hp]
          exact ⟨rest, by simp⟩
        · intro _
          simp only [speechStep, hp, hfalse, if_false, Bool.false_eq_true]
          rw [he, hp]
          simp

lemma QInv_runQ (es : List SpeechEv) : ∀ st : SpeechState, QInv st → QInv (runQ st es) := by
  induction es with
  | nil => intro st h; exact h
  | cons e es ih => intro st h; exact ih (speechStep st e) (QInv_step st e h)

lemma enqueued_mono (es : List SpeechEv) : ∀ st : SpeechState,
    st.enqueued <+: (runQ st es).enqueued := by
  induction es with
  | nil => intro st; exact List.prefix_refl _
  | cons e es ih =>
    intro st
    refine List.IsPrefix.trans ?_ (ih (speechStep st e))
    cases e with
    | enqueue s => exact List.prefix_append _ _
    | cancel => exact List.prefix_refl _
    | workerStep =>
      cases hp : st.pending with
      | nil => simp [speechStep, hp]
      | cons s rest =>
        by_cases hf : st.flag = true <;> simp [speechStep, hp, hf]

/-- C2: if the monitor's cancellation (`interrupt_flag.set()` followed by
`clear_speech_queue()`, modelled as the atomic cancel event) happens after at
least one unit has been enqueued, then in the remainder of the reply cycle no
further unit ever completes playback, and the completed units form a prefix
of the enqueued sequence. -/
theorem cancel_playback_prefix (es1 es2 : List SpeechEv)
    (_h : 0 < (runQ initSpeech es1).enqueued.length) :
    (runQ (runQ initSpeech (es1 ++ [SpeechEv.cancel])) es2).played
        = (runQ initSpeech (es1 ++ [SpeechEv.cancel])).played ∧
      (runQ (runQ initSpeech (es1 ++ [SpeechEv.cancel])) es2).played <+:
        (runQ (runQ initSpeech (es1 ++ [SpeechEv.cancel])) es2).enqueued := by
  have hc : runQ initSpeech (es1 ++ [SpeechEv.cancel])
      = speechStep (runQ initSpeech es1) SpeechEv.cancel := by
    rw [runQ_append]
    rfl
  have hflag : (runQ initSpeech (es1 ++ [SpeechEv.cancel])).flag = true := by
    rw [hc]
    rfl
  have hstay := flag_stays es2 _ hflag
  refine ⟨hstay.2, ?_⟩
  rw [hstay.2]
  have hinv := QInv_runQ (es1 ++ [SpeechEv.cancel]) initSpeech QInv_init
  exact hinv.1.trans (enqueued_mono es2 _)

/-- Witness for C2 at a concrete interleaving: one unit enqueued, cancel,
then another enqueue and a worker step. -/
theorem cancel_playback_prefix_witness :
    0 < (runQ initSpeech [SpeechEv.enqueue "First."]).enqueued.length ∧
      ((runQ (runQ initSpeech ([SpeechEv.enqueue "First."] ++ [SpeechEv.cancel]))
          [SpeechEv.enqueue "Second.", SpeechEv.workerStep]).played
        = (runQ initSpeech ([SpeechEv.enqueue "First."] ++ [SpeechEv.cancel])).played ∧
      (runQ (runQ initSpeech ([SpeechEv.enqueue "First."] ++ [SpeechEv.cancel]))
          [SpeechEv.enqueue "Second.", SpeechEv.workerStep]).played <+:
        (runQ (runQ initSpeech ([SpeechEv.enqueue "First."] ++ [SpeechEv.cancel]))
          [SpeechEv.enqueue "Second.", SpeechEv.workerStep]).enqueued) :=
  ⟨by decide, cancel_playback_prefix [SpeechEv.enqueue "First."]
    [SpeechEv.enqueue "Second.", SpeechEv.workerStep] (by decide)⟩

/-- The acknowledgement utterance of the interrupted branch (line 343). -/
def ackText : String := "Of course, dear. I've paused. What would you like to do next?"

/-- C3 (code bug): after an interruption the main loop enqueues the
acknowledgement (line 343) while `interrupt_flag` is still set — the flag is
cleared only at the start of the next reply cycle (line 318) — so the worker
dequeues it under the flag check of lines 143-145 and skips it.  In the run
below the acknowledgement is enqueued and consumed (pending ends empty) but
the played sequence never includes it. -/
theorem interrupt_ack_never_plays :
    (runQ initSpeech [SpeechEv.enqueue "Reply sentence one.", SpeechEv.workerStep,
        SpeechEv.cancel, SpeechEv.enqueue ackText, SpeechEv.workerStep]).played
        = ["Reply sentence one."] ∧
      (runQ initSpeech [SpeechEv.enqueue "Reply sentence one.", SpeechEv.workerStep,
        SpeechEv.cancel, SpeechEv.enqueue ackText, SpeechEv.workerStep]).pending = [] ∧
      ackText ∈ (runQ initSpeech [SpeechEv.enqueue "Reply sentence one.", SpeechEv.workerStep,
        SpeechEv.cancel, SpeechEv.enqueue ackText, SpeechEv.workerStep]).enqueued := by
  refine ⟨?_, ?_, ?_⟩ <;> decide

/-! ## The worker faced with a failing unit (src/lola_voice_chat.py lines 135-163) -/

/-- One queued unit together with the behaviour of its synthesis/playback:
`fails = true` models `engine.say`/`engine.iterate` raising an exception for
this unit. -/
structure SpeechUnit where
  text : String
  fails : Bool
deriving DecidableEq

/-- `tts_worker`'s processing of a batch of queued units (lines 139-161),
with the interrupt flag fixed over the batch.  A unit is skipped when the
flag is set (lines 143-145).  The `try` around playback (lines 148-159)
carries a `finally` that clears the speaking flag but no `except` clause, so
an exception raised for a unit propagates out of the `while True` loop,
reaches the outer `try`/`finally` (lines 138, 162-163) and terminates the
worker thread: no later unit is processed.  The result is the sequence of
units whose playback completes. -/
def tts_worker_run (flag : Bool) : List SpeechUnit → List String
  | [] => []
  | u :: rest =>
    if flag then tts_worker_run flag rest
    else if u.fails then []
    else u.text :: tts_worker_run flag rest

/-- C5 (counterexample): with three queued units of one reply where the
second fails, only the first is played; the third never plays, so a single
failing unit does prevent the remaining queued units of the same reply from
being played. -/
theorem failing_unit_silences_rest :
    tts_worker_run false
        [⟨"First sentence.", false⟩, ⟨"Second sentence.", true⟩, ⟨"Third sentence.", false⟩]
      = ["First sentence."] ∧
    "Third sentence." ∉ tts_worker_run false
        [⟨"First sentence.", false⟩, ⟨"Second sentence.", true⟩, ⟨"Third sentence.", false⟩] := by
  constructor <;> decide

/-- C5 (amended): if synthesis/playback of one queued unit raises, the
exception escapes the worker loop (there is no per-unit `except`) and the
worker terminates: exactly the units before the failing one play, and
neither the failing unit nor any unit queued after it is ever played. -/
theorem failing_unit_kills_worker (pre : List SpeechUnit) (u : SpeechUnit)
    (post : List SpeechUnit) (hpre : ∀ v ∈ pre, v.fails = false) (hu : u.fails = true) :
    tts_worker_run false (pre ++ u :: post) = pre.map SpeechUnit.text := by
  induction pre with
  | nil => simp [tts_worker_run, hu]
  | cons v vs ih =>
    have hv : v.fails = false := hpre v (List.mem_cons_self v vs)
    have ihh := ih (fun w hw => hpre w (List.mem_cons_of_mem v hw))
    simp [tts_worker_run, hv, ihh]

/-- Witness for the amended C5 at a concrete batch. -/
theorem failing_unit_kills_worker_witness :
    (∀ v ∈ [(⟨"A.", false⟩ : SpeechUnit)], v.fails = false) ∧
      (⟨"B.", true⟩ : SpeechUnit).fails = true ∧
      tts_worker_run false ([⟨"A.", false⟩] ++ (⟨"B.", true⟩ : SpeechUnit) :: [⟨"C.", false⟩])
        = [(⟨"A.", false⟩ : SpeechUnit)].map SpeechUnit.text :=
  ⟨by decide, rfl,
    failing_unit_kills_worker [⟨"A.", false⟩] ⟨"B.", true⟩ [⟨"C.", false⟩] (by decide) rfl⟩

/-! ## The speaking flag over an uninterrupted reply
(src/lola_voice_chat.py lines 139-161)

The worker loop is traced at the granularity of its per-unit steps, in
source order: dequeue (line 140), `is_speaking.set()` (line 147), playback
start (`engine.say`, line 149), playback end (the `engine.isBusy` wait loop
of lines 150-158 finishing), `is_speaking.clear()` (line 160, in the
`finally`). -/
inductive TTSEvent where
  | dequeue (s : String)
  | setSpeaking
  | playStart (s : String)
  | playEnd (s : String)
  | clearSpeaking
deriving DecidableEq

/-- The five per-unit events, in source order. -/
def unit_block (s : String) : List TTSEvent :=
  [TTSEvent.dequeue s, TTSEvent.setSpeaking, TTSEvent.playStart s,
   TTSEvent.playEnd s, TTSEvent.clearSpeaking]

/-- The worker's event trace for a queue of units with no interruption:
`queue.get()` returns units in FIFO order, one block per unit. -/
def worker_trace (ts : List String) : List TTSEvent := ts.flatMap unit_block

/-- Effect of one trace event on `is_speaking`. -/
def flagStep (b : Bool) : TTSEvent → Bool
  | TTSEvent.setSpeaking => true
  | TTSEvent.clearSpeaking => false
  | _ => b

/-- Value of `is_speaking` after a sequence of trace events (initially
unset). -/
def flagAfter (es : List TTSEvent) : Bool := es.foldl flagStep false

/-- Projection keeping playback starts. -/
def startedUnit : TTSEvent → Option String
  | TTSEvent.playStart s => some s
  | _ => none

/-- C6 (counterexample): with two enqueued units the flag is false after the
fifth trace event — the first unit's `is_speaking.clear()` — although that
point lies strictly between the start of the first unit's playback (trace
index 2) and the end of the last unit's playback (trace index 8): the
speaking flag is not true across the whole span. -/
theorem speaking_flag_gap_between_units :
    flagAfter ((worker_trace ["First.", "Second."]).take 5) = false ∧
      (worker_trace ["First.", "Second."])[2]? = some (TTSEvent.playStart "First.") ∧
      (worker_trace ["First.", "Second."])[8]? = some (TTSEvent.playEnd "Second.") := by
  refine ⟨?_, ?_, ?_⟩ <;> decide

/-- C6 (amended): with no interruption the worker starts the units in FIFO
order, and the speaking flag is per-unit: after `k` trace events it is true
exactly when `k` falls inside the handling of a single unit — positions
`5*j + 2` (after its `set`), `5*j + 3` (after its `playStart`) and `5*j + 4`
(after its `playEnd`) — and false between units and outside playback. -/
theorem speaking_flag_per_unit (ts : List String) :
    (worker_trace ts).filterMap startedUnit = ts ∧
    ∀ k : Nat, k ≤ 5 * ts.length →
      flagAfter ((worker_trace ts).take k)
        = (decide (k % 5 = 2) || decide (k % 5 = 3) || decide (k % 5 = 4)) := by
  constructor
  · induction ts with
    | nil => rfl
    | cons t ts ih =>
      rw [worker_trace, List.flatMap_cons, List.filterMap_append]
      rw [worker_trace] at ih
      rw [ih]
      rfl
  · induction ts with
    | nil =>
      intro k hk
      simp at hk
      subst hk
      rfl
    | cons t ts ih =>
      intro k hk
      rw [worker_trace, List.flatMap_cons]
      by_cases hk5 : k ≤ 5
      · have htake : (unit_block t ++ ts.flatMap unit_block).take k = (unit_block t).take k := by
          apply List.take_append_of_le_length
          simp [unit_block]
          omega
        rw [htake]
        interval_cases k <;> rfl
      · obtain ⟨k', rfl⟩ : ∃ k', k = 5 + k' := ⟨k - 5, by omega⟩
        have htake : (unit_block t ++ ts.flatMap unit_block).take (5 + k')
            = unit_block t ++ (ts.flatMap unit_block).take k' := by
          have : (unit_block t).length = 5 := rfl
          rw [← this]
          exact List.take_append k'
        rw [htake, flagAfter, List.foldl_append]
        have hblock : (unit_block t).foldl flagStep false = false := rfl
        rw [hblock]
        have hk' : k' ≤ 5 * ts.length := by
          simp [List.length_cons, Nat.mul_succ] at hk
          omega
        have := ih k' hk'
        rw [worker_trace] at this
        rw [flagAfter] at this
        rw [this]
        have hm : (5 + k') % 5 = k' % 5 := by omega
        rw [hm]

/-- Witness for the amended C6: one unit, checked just after its
`setSpeaking` event. -/
theorem speaking_flag_per_unit_witness :
    2 ≤ 5 * (["Hello."] : List String).length ∧
      (worker_trace ["Hello."]).filterMap startedUnit = ["Hello."] ∧
      flagAfter ((worker_trace ["Hello."]).take 2) = true := by
  refine ⟨by decide, (speaking_flag_per_unit ["Hello."]).1, ?_⟩
  have := (speaking_flag_per_unit ["Hello."]).2 2 (by decide)
  simpa using this

/-! ## Conversation history (src/lola_voice_chat.py lines 247-254, 301-354) -/

/-- A role-tagged conversation turn, `{"role": ..., "content": ...}`. -/
structure Msg where
  role : String
  content : String
deriving DecidableEq

/-- The permanent system turn (lines 247-254; Python adjacent string
literals concatenate). -/
def systemMsg : Msg :=
  ⟨"system",
   "You are Lola, a warm, patient, and tender assistant for seniors. " ++
   "Speak slowly, clearly, and kindly. " ++
   "When reading Bible chapters, give the COMPLETE text with verse numbers. " ++
   "Never summarize. Always be thorough, gentle, and caring."⟩

/-- The apology spoken on reasoning failure (line 309). -/
def apologyText : String :=
  "I'm sorry, dear, I couldn't reach the answer just now. Shall we try again?"

/-- Python truthiness of `if not answer` (line 308): `None` (the request
failed, `ask_llama` returned `None`) and the empty string are falsy. -/
def falsyAnswer : Option String → Bool
  | none => true
  | some s => s == ""

/-- The history-truncation step (lines 349-350):
`conversation = [conversation[0]] + conversation[-10:]` once more than 11
turns are retained. -/
def truncate_history (conv : List Msg) : List Msg :=
  if conv.length > 11 then conv.take 1 ++ conv.drop (conv.length - 10) else conv

/-- Outcome of one exchange: the updated history together with the
utterances this branch hands to `speak`. -/
structure ExchangeResult where
  hist : List Msg
  spoken : List String
deriving DecidableEq

/-- One completed exchange of the main loop (lines 301-350), given the
transcribed user text and the outcome of `ask_llama`: the user turn is
appended (line 301); on a falsy answer the apology is spoken and
`conversation.pop()` removes the just-appended user turn before the loop
continues (lines 308-311); otherwise the assistant turn is appended
(line 313), the reply is segmented and spoken sentence by sentence (lines
315-328; the uninterrupted case), and the history is truncated
(lines 349-350). -/
def process_user_text (conv : List Msg) (user_text : String) (answer : Option String) :
    ExchangeResult :=
  let conv1 := conv ++ [⟨"user", user_text⟩]
  match answer with
  | none => ⟨conv1.dropLast, [apologyText]⟩
  | some ans =>
    if ans = "" then ⟨conv1.dropLast, [apologyText]⟩
    else
      let conv2 := conv1 ++ [⟨"assistant", ans⟩]
      ⟨truncate_history conv2, split_into_sentences ans⟩

set_option maxRecDepth 10000 in
/-- C4 (counterexample): starting from the initial history, a failed
reasoning call (`answer = None`) for the user text "hello" leaves the
history without the just-appended user turn — `conversation.pop()`
(line 310) removes it — contradicting the claim that the user turn is
retained. -/
theorem reasoning_failure_pops_user_turn :
    (process_user_text [systemMsg] "hello" none).hist = [systemMsg] ∧
      Msg.mk "user" "hello" ∉ (process_user_text [systemMsg] "hello" none).hist := by
  constructor <;> decide

/-- C4 (amended): on reasoning failure (falsy answer) the session speaks
exactly the apology and returns to listening with the conversation history
restored to its state before the exchange: the just-appended user turn is
removed again by `conversation.pop()`, and no assistant turn is appended. -/
theorem reasoning_failure_amended (conv : List Msg) (user_text : String)
    (answer : Option String) (h : falsyAnswer answer = true) :
    process_user_text conv user_text answer = ⟨conv, [apologyText]⟩ := by
  cases answer with
  | none => simp [process_user_text, List.dropLast_concat]
  | some s =>
    have hs : s = "" := by simpa [falsyAnswer] using h
    subst hs
    simp [process_user_text, List.dropLast_concat]

/-- Witness for the amended C4. -/
theorem reasoning_failure_amended_witness :
    falsyAnswer none = true ∧
      process_user_text [systemMsg] "hello" none = ⟨[systemMsg], [apologyText]⟩ :=
  ⟨rfl, reasoning_failure_amended [systemMsg] "hello" none rfl⟩

/-- Histories reachable after a sequence of completed exchanges from the
initial conversation (lines 247-254): each step supplies the user text and
the reasoning outcome. -/
def history_after (steps : List (String × Option String)) : List Msg :=
  steps.foldl (fun h s => (process_user_text h s.1 s.2).hist) [systemMsg]

/-- The same exchange step with the truncation of lines 349-350 omitted:
the reference sequence of retained turns against which eviction is
stated. -/
def full_step (h : List Msg) (s : String × Option String) : List Msg :=
  let conv1 := h ++ [⟨"user", s.1⟩]
  match s.2 with
  | none => conv1.dropLast
  | some ans => if ans = "" then conv1.dropLast else conv1 ++ [⟨"assistant", ans⟩]

/-- The untruncated turn sequence after the same exchanges. -/
def full_history_after (steps : List (String × Option String)) : List Msg :=
  steps.foldl full_step [systemMsg]

lemma take_one_of_head {α : Type} {l : List α} {x : α} (h : l.head? = some x) :
    l.take 1 = [x] := by
  cases l with
  | nil => simp at h
  | cons a t =>
    simp at h
    subst h
    rfl

/-- The invariant tying the retained history to the untruncated turn
sequence: the system turn leads both, the bound holds, and the history is
the untruncated sequence with one initial block of non-system turns
(positions `1` to `k-1`) removed. -/
def HistInv (h f : List Msg) : Prop :=
  h.head? = some systemMsg ∧ f.head? = some systemMsg ∧ h.length ≤ 11 ∧
    ∃ k, 1 ≤ k ∧ k ≤ f.length ∧ h = f.take 1 ++ f.drop k

lemma hist_step (h f : List Msg) (s : String × Option String) (hI : HistInv h f) :
    HistInv (process_user_text h s.1 s.2).hist (full_step f s) := by
  obtain ⟨hh, hf, hlen, k, hk1, hkf, hdef⟩ := hI
  obtain ⟨u, ans⟩ := s
  have hfne : f ≠ [] := by
    intro he
    rw [he] at hf
    simp at hf
  rcases hcase : ans with _ | a
  · refine ⟨?_, ?_, ?_, k, hk1, ?_, ?_⟩ <;>
      simp only [process_user_text, full_step, List.dropLast_concat] <;>
      first
        | exact hh
        | exact hf
        | exact hlen
        | exact hkf
        | exact hdef
  · by_cases ha : a = ""
    · subst ha
      refine ⟨?_, ?_, ?_, k, hk1, ?_, ?_⟩ <;>
        simp only [process_user_text, full_step, if_pos rfl, List.dropLast_concat] <;>
        first
          | exact hh
          | exact hf
          | exact hlen
          | exact hkf
          | exact hdef
    · -- a reply was obtained: two turns are appended, then truncation runs
      have hps : (process_user_text h u (some a)).hist
          = truncate_history ((h ++ [⟨"user", u⟩]) ++ [⟨"assistant", a⟩]) := by
        simp [process_user_text, ha]
      have hfs : full_step f (u, some a) = (f ++ [⟨"user", u⟩]) ++ [⟨"assistant", a⟩] := by
        simp [full_step, ha]
      set x : List Msg := (h ++ [⟨"user", u⟩]) ++ [⟨"assistant", a⟩] with hx
      set f' : List Msg := (f ++ [⟨"user", u⟩]) ++ [⟨"assistant", a⟩] with hf'
      have hxapp : x = h ++ [⟨"user", u⟩, ⟨"assistant", a⟩] := by
        rw [hx, List.append_assoc]
        rfl
      have hfapp : f' = f ++ [⟨"user", u⟩, ⟨"assistant", a⟩] := by
        rw [hf', List.append_assoc]
        rfl
      have hf'len : f'.length = f.length + 2 := by
        rw [hfapp]
        simp
      have hf'head : f'.head? = some systemMsg := by
        rw [hfapp, List.head?_append, hf]
        rfl
      have hf'take : f'.take 1 = f.take 1 := by
        rw [take_one_of_head hf'head, take_one_of_head hf]
      have hxlen : x.length = h.length + 2 := by
        rw [hxapp]
        simp
      have hdropf' : f'.drop k = f.drop k ++ [⟨"user", u⟩, ⟨"assistant", a⟩] := by
        rw [hfapp, List.drop_append_of_le_length hkf]
      have hxdef : x = f'.take 1 ++ f'.drop k := by
        rw [hxapp, hdef, hf'take, hdropf', List.append_assoc]
      have hxhead : x.head? = some systemMsg := by
        rw [hxdef, List.head?_append, take_one_of_head hf'head]
        rfl
      have hxtake : x.take 1 = f'.take 1 := by
        rw [take_one_of_head hxhead, take_one_of_head hf'head]
      have hlenrel : x.length = 1 + (f'.length - k) := by
        rw [hxdef]
        have h1 : (f'.take 1).length = 1 := by
          rw [take_one_of_head hf'head]
          rfl
        have hkf' : k ≤ f'.length := by
          rw [hf'len]
          omega
        simp [h1, List.length_drop]
      rw [hps, hfs]
      by_cases hbig : x.length > 11
      · have htr : truncate_history x = x.take 1 ++ x.drop (x.length - 10) := by
          rw [truncate_history, if_pos hbig]
        have hkf' : k ≤ f'.length := by
          rw [hf'len]
          omega
        have hdrop : ∀ m : Nat, 1 ≤ m → x.drop m = f'.drop (k + m - 1) := by
          intro m hm
          conv_lhs => rw [hxdef]
          have h1 : (f'.take 1).length = 1 := by
            rw [take_one_of_head hf'head]
            rfl
          obtain ⟨j, rfl⟩ : ∃ j, m = 1 + j := ⟨m - 1, by omega⟩
          have hstep : (1 : Nat) + j = (f'.take 1).length + j := by rw [h1]
          rw [hstep, List.drop_append, List.drop_drop]
          congr 1
          omega
        refine ⟨?_, hf'head, ?_, k + (x.length - 10) - 1, ?_, ?_, ?_⟩
        · rw [htr, hxtake, List.head?_append, take_one_of_head hf'head]
          rfl
        · rw [htr]
          have h1 : (x.take 1).length = 1 := by
            rw [take_one_of_head hxhead]
            rfl
          have : (x.drop (x.length - 10)).length = 10 := by
            rw [List.length_drop]
            omega
          simp [h1, this]
        · omega
        · rw [hf'len]
          omega
        · rw [htr, hxtake, hdrop (x.length - 10) (by omega)]
      · have htr : truncate_history x = x := by
          rw [truncate_history, if_neg hbig]
        refine ⟨?_, hf'head, ?_, k, hk1, ?_, ?_⟩
        · rw [htr]
          exact hxhead
        · rw [htr]
          omega
        · rw [hf'len]
          omega
        · rw [htr]
          exact hxdef

lemma HistInv_run (steps : List (String × Option String)) : ∀ h f : List Msg,
    HistInv h f →
    HistInv (steps.foldl (fun h s => (process_user_text h s.1 s.2).hist) h)
      (steps.foldl full_step f) := by
  induction steps with
  | nil => intro h f hI; exact hI
  | cons s steps ih =>
    intro h f hI
    exact ih _ _ (hist_step h f s hI)

/-- C7: after any sequence of completed exchanges, the history keeps the
permanent system turn as its first element and at most 11 turns, and equals
the untruncated turn sequence with a single initial block of non-system
turns (positions 1 to k-1, the oldest ones) evicted: only the oldest
non-system turns are ever dropped, and the system turn is never evicted. -/
theorem history_retention (steps : List (String × Option String)) :
    (history_after steps).head? = some systemMsg ∧
      (history_after steps).length ≤ 11 ∧
      ∃ k, 1 ≤ k ∧ k ≤ (full_history_after steps).length ∧
        history_after steps
          = (full_history_after steps).take 1 ++ (full_history_after steps).drop k := by
  have h0 : HistInv [systemMsg] [systemMsg] :=
    ⟨rfl, rfl, by simp, 1, le_refl 1, by simp, by simp⟩
  have := HistInv_run steps [systemMsg] [systemMsg] h0
  exact ⟨this.1, this.2.2.1, this.2.2.2⟩

/-! ## The agent response schema (src/agents/response_schema.py lines 12-97)

Only the fields that participate in `__post_init__` validation are
modelled (`type`, `action`, `url`, `confidence`), plus `success` and
`content`; `metadata`, `alternatives`, `error_message` and `error_code`
play no part in validation.  `confidence` (a Python float in the source) is
modelled as a rational number, which supports the comparison
`0.0 <= confidence <= 1.0` exactly on every value the schema documents. -/

/-- `ResponseType` (lines 12-18). -/
inductive ResponseType where
  | chat
  | hymn
  | sermon
  | error
  | clarification
deriving DecidableEq

/-- The `ResponseType(value)` enum constructor on a string. -/
def ResponseType.ofString : String → Option ResponseType
  | "chat" => some ResponseType.chat
  | "hymn" => some ResponseType.hymn
  | "sermon" => some ResponseType.sermon
  | "error" => some ResponseType.error
  | "clarification" => some ResponseType.clarification
  | _ => none

/-- `ActionType` (lines 21-26). -/
inductive ActionType where
  | speak
  | play
  | both
  | none
deriving DecidableEq

/-- The `ActionType(value)` enum constructor on a string. -/
def ActionType.ofString : String → Option ActionType
  | "speak" => some ActionType.speak
  | "play" => some ActionType.play
  | "both" => some ActionType.both
  | "none" => some ActionType.none
  | _ => Option.none

/-- A dynamically typed `type` argument: either already a `ResponseType` or
a string to be coerced (line 86). -/
inductive TypeArg where
  | enum (t : ResponseType)
  | str (s : String)
deriving DecidableEq

/-- A dynamically typed `action` argument (line 88). -/
inductive ActionArg where
  | enum (a : ActionType)
  | str (s : String)
deriving DecidableEq

/-- The validated dataclass (fields participating in validation). -/
structure AgentResponse where
  success : Bool
  type : ResponseType
  content : String
  url : Option String
  confidence : ℚ
  action : ActionType
deriving DecidableEq

/-- The coercion `self.type = ResponseType(self.type)` of lines 86-87:
`ResponseType(value)` raises `ValueError` when the string names no member. -/
def coerceType : TypeArg → Except String ResponseType
  | TypeArg.enum t => Except.ok t
  | TypeArg.str s =>
    match ResponseType.ofString s with
    | some t => Except.ok t
    | Option.none => Except.error ("ValueError: " ++ s ++ " is not a valid ResponseType")

/-- The coercion `self.action = ActionType(self.action)` of lines 88-89. -/
def coerceAction : ActionArg → Except String ActionType
  | ActionArg.enum a => Except.ok a
  | ActionArg.str s =>
    match ActionType.ofString s with
    | some a => Except.ok a
    | Option.none => Except.error ("ValueError: " ++ s ++ " is not a valid ActionType")

/-- Python truthiness of `not self.url` (line 96): `None` and the empty
string are falsy. -/
def falsyUrl : Option String → Bool
  | Option.none => true
  | some s => s == ""

/-- Construction of an `AgentResponse` with its `__post_init__` validation
(lines 83-97), in source order: coerce `type` (raises on an invalid string),
coerce `action`, check `0.0 <= confidence <= 1.0`, and require a truthy
`url` when the action is `PLAY` or `BOTH`.  `Except.error` carries the
`ValueError` message. -/
def mkAgentResponse (success : Bool) (ty : TypeArg) (content : String) (url : Option String)
    (confidence : ℚ) (action : ActionArg) : Except String AgentResponse :=
  match coerceType ty with
  | Except.error e => Except.error e
  | Except.ok t =>
    match coerceAction action with
    | Except.error e => Except.error e
    | Except.ok a =>
      if ¬ (0 ≤ confidence ∧ confidence ≤ 1) then
        Except.error "ValueError: Confidence must be 0.0-1.0"
      else if (a = ActionType.play ∨ a = ActionType.both) ∧ falsyUrl url = true then
        Except.error "ValueError: Action requires a URL"
      else
        Except.ok ⟨success, t, content, url, confidence, a⟩

/-- C10 (counterexample): constructing with the string type `"bogus"`, an
in-range confidence and the `SPEAK` action raises `ValueError` from the enum
coercion, although the claimed condition (confidence outside `[0,1]`, or
`PLAY`/`BOTH` without a url) does not hold. -/
theorem agent_response_bogus_type_raises :
    mkAgentResponse true (TypeArg.str "bogus") "x" Option.none 1 (ActionArg.enum ActionType.speak)
        = Except.error "ValueError: bogus is not a valid ResponseType" ∧
      ((0 : ℚ) ≤ 1 ∧ (1 : ℚ) ≤ 1) ∧ ActionType.speak ≠ ActionType.play ∧
        ActionType.speak ≠ ActionType.both := by
  refine ⟨rfl, ⟨by norm_num, by norm_num⟩, by decide, by decide⟩

/-- The success condition of `__post_init__` as the amended claim states it:
both coercions succeed, the confidence lies in `[0,1]`, and an action of
`PLAY` or `BOTH` comes with a truthy url. -/
def postInitOk (ty : TypeArg) (action : ActionArg) (url : Option String)
    (confidence : ℚ) : Bool :=
  match coerceType ty, coerceAction action with
  | Except.ok _, Except.ok a =>
    decide (0 ≤ confidence) && decide (confidence ≤ 1)
      && ! ((a == ActionType.play || a == ActionType.both) && falsyUrl url)
  | _, _ => false

/-- C10 (amended): construction succeeds if and only if the string-valued
`type` and `action` coerce to enum members, the confidence lies in
`[0.0, 1.0]`, and an action of `PLAY` or `BOTH` has a truthy url; raising
`ValueError` otherwise.  On success the stored `type` and `action` are the
coerced enum values and the other fields are stored unchanged. -/
theorem agent_response_validation_amended (success : Bool) (ty : TypeArg) (content : String)
    (url : Option String) (confidence : ℚ) (action : ActionArg) :
    ((mkAgentResponse success ty content url confidence action).isOk
        = postInitOk ty action url confidence) ∧
    (∀ t a, coerceType ty = Except.ok t → coerceAction action = Except.ok a →
      postInitOk ty action url confidence = true →
      mkAgentResponse success ty content url confidence action
        = Except.ok ⟨success, t, content, url, confidence, a⟩) := by
  constructor
  · rcases hty : coerceType ty with e | t
    · simp [mkAgentResponse, postInitOk, hty, Except.isOk, Except.toBool]
    · rcases hact : coerceAction action with e | a
      · simp [mkAgentResponse, postInitOk, hty, hact, Except.isOk, Except.toBool]
      · simp only [mkAgentResponse, postInitOk, hty, hact]
        by_cases hconf : 0 ≤ confidence ∧ confidence ≤ 1
        · rw [if_neg (not_not_intro hconf)]
          by_cases hurl : (a = ActionType.play ∨ a = ActionType.both) ∧ falsyUrl url = true
          · rw [if_pos hurl]
            have hb : ((a == ActionType.play || a == ActionType.both) && falsyUrl url)
                = true := by
              rcases hurl.1 with h | h <;> simp [h, hurl.2]
            simp [Except.isOk, Except.toBool, hb, hconf.1, hconf.2]
          · rw [if_neg hurl]
            have hb : ((a == ActionType.play || a == ActionType.both) && falsyUrl url)
                = false := by
              by_cases hb2 : ((a == ActionType.play || a == ActionType.both)
                  && falsyUrl url) = true
              · exfalso
                apply hurl
                have h1 := Bool.and_eq_true_iff.mp hb2
                refine ⟨?_, h1.2⟩
                rcases Bool.or_eq_true_iff.mp h1.1 with h | h
                · exact Or.inl (by simpa using h)
                · exact Or.inr (by simpa using h)
              · simpa using hb2
            simp [Except.isOk, Except.toBool, hb, hconf.1, hconf.2]
        · rw [if_pos hconf]
          have hb : (decide (0 ≤ confidence) && decide (confidence ≤ 1)) = false := by
            rcases not_and_or.mp hconf with h | h <;> simp [h]
          simp [Except.isOk, Except.toBool, hb]
  · intro t a ht ha hok
    simp only [postInitOk, ht, ha, Bool.and_eq_true, Bool.not_eq_true',
      decide_eq_true_eq] at hok
    have hconf : 0 ≤ confidence ∧ confidence ≤ 1 := ⟨hok.1.1, hok.1.2⟩
    have hurl : ¬ ((a = ActionType.play ∨ a = ActionType.both) ∧ falsyUrl url = true) := by
      intro hcontra
      have hb : ((a == ActionType.play || a == ActionType.both) && falsyUrl url) = true := by
        rcases hcontra.1 with h | h <;> simp [h, hcontra.2]
      rw [hok.2] at hb
      cases hb
    simp only [mkAgentResponse, ht, ha]
    rw [if_neg (not_not_intro hconf), if_neg hurl]

/-- Witness for the amended C10: a hymn-style response with action `BOTH`
and a url constructs successfully with the coerced enum fields. -/
theorem agent_response_validation_amended_witness :
    coerceType (TypeArg.str "hymn") = Except.ok ResponseType.hymn ∧
      coerceAction (ActionArg.str "both") = Except.ok ActionType.both ∧
      postInitOk (TypeArg.str "hymn") (ActionArg.str "both") (some "http://x/y.mp3") 1 = true ∧
      mkAgentResponse true (TypeArg.str "hymn") "Playing Amazing Grace" (some "http://x/y.mp3")
          1 (ActionArg.str "both")
        = Except.ok ⟨true, ResponseType.hymn, "Playing Amazing Grace", some "http://x/y.mp3",
            1, ActionType.both⟩ :=
  ⟨rfl, rfl, by decide,
    (agent_response_validation_amended true (TypeArg.str "hymn") "Playing Amazing Grace"
        (some "http://x/y.mp3") 1 (ActionArg.str "both")).2
      ResponseType.hymn ActionType.both rfl rfl (by decide)⟩

end Chatbox
